import Mathlib

/-!
Verification of the calcium-imaging pipeline in src/app.py.

The shallow embedding below translates the pure computational core of the
repository into Lean: machine floats become rationals, numpy arrays become
nested lists, and the in-place numpy updates of the relabeling loop are
modelled by explicit state passing.  Each definition is annotated with the
source function and line range it embeds.
-/

namespace CalApp

/-- Two-dimensional raster: a list of rows. -/
abbrev Grid (α : Type) := List (List α)

/-- Row-major flattening of a grid (numpy ravel order). -/
def gridFlat {α : Type} (g : Grid α) : List α := g.flatten

/-- Embeds np.unique restricted to nonzero values, as used at
src/app.py lines 807-809 and 1201-1202: the distinct nonzero values of the
mask in ascending order. -/
def uniqueCells (m : Grid ℕ) : List ℕ :=
  List.insertionSort (· ≤ ·) ((gridFlat m).filter (fun v => v != 0)).dedup

/-- One video frame as iterated at src/app.py line 825: either a 2-D
grayscale array or a 3-channel (RGB) array. -/
inductive VFrame
  | gray : Grid ℚ → VFrame
  | rgb : Grid (ℚ × ℚ × ℚ) → VFrame
deriving DecidableEq, Repr

instance : Inhabited VFrame := ⟨.gray []⟩

/-- Embeds src/app.py lines 827-828: a 3-D frame is reduced to its green
channel (index 1), a 2-D frame is used directly. -/
def frameGreen : VFrame → Grid ℚ
  | .gray g => g
  | .rgb g => g.map (fun row => row.map (fun px => px.2.1))

/-- Embeds the boolean-mask selection frame[cell_mask] of src/app.py
line 836: position-wise pairing of the frame with the mask, keeping the
frame values at positions whose label equals c, in row-major order. -/
def selectVals (g : Grid ℚ) (m : Grid ℕ) (c : ℕ) : List ℚ :=
  (g.zip m).flatMap (fun rz =>
    (rz.1.zip rz.2).filterMap (fun pz => if pz.2 = c then some pz.1 else none))

/-- Embeds np.mean of a list: sum divided by length. -/
def listMean (l : List ℚ) : ℚ := l.sum / (l.length : ℚ)

/-- Embeds np.mean(frame[cell_mask]) at src/app.py line 836. -/
def meanOver (g : Grid ℚ) (m : Grid ℕ) (c : ℕ) : ℚ := listMean (selectVals g m c)

/-- One row of the long-form intensity table built at src/app.py
lines 839-843. -/
structure Rec3 where
  frame : ℕ
  cell_id : ℕ
  intensity : ℚ
deriving DecidableEq, Repr

/-- One row of the final table after the normalized_intensity column is
added at src/app.py lines 859-862. -/
structure Rec4 where
  frame : ℕ
  cell_id : ℕ
  intensity : ℚ
  normalized_intensity : ℚ
deriving DecidableEq, Repr

/-- The sequentiality test of src/app.py line 812:
np.array_equal(unique_cells, np.arange(1, len(unique_cells) + 1)). -/
def Canonical (m : Grid ℕ) : Prop :=
  uniqueCells m = List.range' 1 (uniqueCells m).length

instance (m : Grid ℕ) : Decidable (Canonical m) := by
  unfold Canonical; infer_instance

/-- Embeds one masked assignment relabeled_mask[masks == original_id] = new_id
(src/app.py line 816 and line 1211): reads src, writes dst. -/
def maskedAssign (src dst : Grid ℕ) (origId newId : ℕ) : Grid ℕ :=
  List.zipWith (fun srow drow =>
    List.zipWith (fun s d => if s = origId then newId else d) srow drow) src dst

/-- Embeds np.zeros_like(masks) (src/app.py line 814 and line 1209). -/
def zerosLike (m : Grid ℕ) : Grid ℕ := m.map (fun row => row.map (fun _ => 0))

/-- Embeds enumerate(unique_cells, 1): the list of (new sequential id,
original id) pairs, sequential ids counting from 1. -/
def seqPairs (cells : List ℕ) : List (ℕ × ℕ) :=
  (List.range' 1 cells.length).zip cells

/-- Embeds the relabeling loop of src/app.py lines 815-816 (and
lines 1210-1211): iterate the masked assignments over the id pairs. -/
def relabelLoop (src : Grid ℕ) (pairs : List (ℕ × ℕ)) (dst : Grid ℕ) : Grid ℕ :=
  pairs.foldl (fun d p => maskedAssign src d p.2 p.1) dst

/-- Embeds the full sequential relabeling of a mask: fresh zero array, then
the masked-assignment loop over the ascending original ids. -/
def relabelMask (m : Grid ℕ) : Grid ℕ :=
  relabelLoop m (seqPairs (uniqueCells m)) (zerosLike m)

/-- The mask actually used by analyze_calcium_intensity after the
conditional relabeling of src/app.py lines 812-817. -/
def analyzeMaskStep (m : Grid ℕ) : Grid ℕ :=
  if Canonical m then m else relabelMask m

/-- The unique_cells list after the conditional relabeling of src/app.py
lines 812-818. -/
def analyzeCells (m : Grid ℕ) : List ℕ :=
  if Canonical m then uniqueCells m else List.range' 1 (uniqueCells m).length

/-- Embeds the nested extraction loop of src/app.py lines 825-843:
for each frame (with its enumerate index, starting at i) and each cell id,
append one record with the mean green intensity over the cell's pixels. -/
def extractFrom (m : Grid ℕ) (cells : List ℕ) : ℕ → List VFrame → List Rec3
  | _, [] => []
  | i, fr :: rest =>
    cells.map (fun c => ⟨i, c, meanOver (frameGreen fr) m c⟩)
      ++ extractFrom m cells (i + 1) rest

/-- The intensity record table of src/app.py lines 822-846 for a given mask
and cell list, frames enumerated from 0. -/
def extractRecords (frames : List VFrame) (m : Grid ℕ) (cells : List ℕ) : List Rec3 :=
  extractFrom m cells 0 frames

/-- The record table produced inside analyze_calcium_intensity (src/app.py
lines 806-846), including the defensive relabeling step. -/
def analyzeRecords (frames : List VFrame) (masks : Grid ℕ) : List Rec3 :=
  extractRecords frames (analyzeMaskStep masks) (analyzeCells masks)

/-- Ascending sort of rationals, embedding the ordering used by
pandas nsmallest. -/
def sortQ (l : List ℚ) : List ℚ := List.insertionSort (· ≤ ·) l

/-- Embeds the per-cell baseline of src/app.py lines 849-856: the intensity
of the first record with frame 0 for that cell when one exists, otherwise
the mean of the min(10, record count) smallest intensities of the cell. -/
def baselineOf (df : List Rec3) (c : ℕ) : ℚ :=
  match df.filter (fun r => r.cell_id == c && r.frame == 0) with
  | r :: _ => r.intensity
  | [] =>
    let cellInt := (df.filter (fun r => r.cell_id == c)).map (fun r => r.intensity)
    listMean ((sortQ cellInt).take (min 10 cellInt.length))

/-- Embeds analyze_calcium_intensity (src/app.py lines 802-865): build the
record table, then add normalized_intensity = intensity / baseline of the
record's cell (lines 859-862).  Division is the unconditional numpy
division; in this rational model x / 0 = 0 stands in for the non-failing
IEEE quotient. -/
def analyze_calcium_intensity (frames : List VFrame) (masks : Grid ℕ) : List Rec4 :=
  let df := analyzeRecords frames masks
  df.map (fun r => ⟨r.frame, r.cell_id, r.intensity, r.intensity / baselineOf df r.cell_id⟩)

/-- Embeds calculate_df (src/app.py lines 1173-1177): baseline is the mean
of the first baseline_frames samples (10 by default; the python slice
intensities[:baseline_frames] truncates to the series length), and
dF = (x - baseline) / baseline elementwise. -/
def calculate_df (intensities : List ℚ) (baseline_frames : ℕ := 10) : List ℚ :=
  let baseline := listMean (intensities.take baseline_frames)
  intensities.map (fun x => (x - baseline) / baseline)

/-- A raw numpy array of rank 1 to 4, as handled by process_video. -/
inductive NDArr
  | d1 : List ℚ → NDArr
  | d2 : List (List ℚ) → NDArr
  | d3 : List (List (List ℚ)) → NDArr
  | d4 : List (List (List (List ℚ))) → NDArr
deriving DecidableEq, Repr

/-- The size of the trailing axis (numpy shape[-1]), read off the first
entry at each level; faithful for rectangular nonempty arrays. -/
def lastLen : NDArr → ℕ
  | .d1 x => x.length
  | .d2 g => (g.headD []).length
  | .d3 a => ((a.headD []).headD []).length
  | .d4 a => (((a.headD []).headD []).headD []).length

/-- Embeds the shape-normalization branch of process_video (src/app.py
lines 1063-1069): a 2-D array becomes (1, H, W, 1); a 3-D array whose last
axis is 1, 3 or 4 becomes a single (1, H, W, C) frame; any other 3-D array
is treated as (N, H, W) and gets a channel axis appended; 4-D and 1-D
arrays pass through. -/
def shapeNorm : NDArr → NDArr
  | .d2 g => .d4 [g.map (fun row => row.map (fun v => [v]))]
  | .d3 a =>
    if lastLen (.d3 a) = 1 ∨ lastLen (.d3 a) = 3 ∨ lastLen (.d3 a) = 4 then .d4 [a]
    else .d4 (a.map (fun fr => fr.map (fun row => row.map (fun v => [v]))))
  | x => x

/-- Embeds np.repeat(·, 3, axis=-1) on one innermost (channel) list. -/
def repeat3 (px : List ℚ) : List ℚ := px.flatMap (fun v => [v, v, v])

/-- Embeds the channel-conversion branch of process_video (src/app.py
lines 1072-1075): a trailing axis of size 1 is repeated into 3 channels, a
trailing axis of size 4 is truncated to its first 3 entries, anything else
is left alone. -/
def chanNorm (a : NDArr) : NDArr :=
  if lastLen a = 1 then
    match a with
    | .d1 x => .d1 (repeat3 x)
    | .d2 g => .d2 (g.map repeat3)
    | .d3 t => .d3 (t.map (fun g => g.map repeat3))
    | .d4 t => .d4 (t.map (fun fr => fr.map (fun row => row.map repeat3)))
  else if lastLen a = 4 then
    match a with
    | .d1 x => .d1 (x.take 3)
    | .d2 g => .d2 (g.map (fun r => r.take 3))
    | .d3 t => .d3 (t.map (fun g => g.map (fun r => r.take 3)))
    | .d4 t => .d4 (t.map (fun fr => fr.map (fun row => row.map (fun px => px.take 3))))
  else a

/-- Embeds the array-shaping part of process_video (src/app.py
lines 1043-1078), taking the already-loaded array as input. -/
def process_video (a : NDArr) : NDArr := chanNorm (shapeNorm a)

/-- Embeds np.array(frames) over the list of frames read by the cv2 loop of
src/app.py lines 1051-1059: a nonempty list of (H, W, C) frames stacks into
a 4-D array, while zero frames give the empty 1-D array np.array([]). -/
def videoCapture (framesRead : List (List (List (List ℚ)))) : NDArr :=
  match framesRead with
  | [] => .d1 []
  | fs => .d4 fs

/-- A raw label volume as read from a mask file, rank 2 to 4. -/
inductive MaskVol
  | d2 : Grid ℕ → MaskVol
  | d3 : List (List (List ℕ)) → MaskVol
  | d4 : List (List (List (List ℕ))) → MaskVol
deriving DecidableEq, Repr

/-- Trailing-axis size of a 3-D label volume (numpy shape[2]). -/
def maskLast3 (m : List (List (List ℕ))) : ℕ := ((m.headD []).headD []).length

/-- Trailing-axis size of a 4-D label volume (numpy shape[-1]). -/
def maskLast4 (m : List (List (List (List ℕ)))) : ℕ :=
  (((m.headD []).headD []).headD []).length

/-- Embeds the 2-D reduction of process_mask (src/app.py lines 1193-1199):
a 3-D volume with trailing axis 3 is reduced to mask[:, :, 0] (the FIRST
channel); any other 3-D volume to mask[0]; a 4-D volume to mask[0, 0]. -/
def processMaskTo2D : MaskVol → Grid ℕ
  | .d2 m => m
  | .d3 m =>
    if maskLast3 m = 3 then m.map (fun row => row.map (fun px => px.headD 0))
    else m.headD []
  | .d4 m => (m.headD []).headD []

/-- Embeds the 2-D reduction of the mask branch of analyze_video
(src/app.py lines 226-231): a volume with trailing axis 3 is reduced to
masks[..., 1] (the green channel, dropping one rank); otherwise a 3-D
volume to masks[0] and a 4-D volume to masks[0, 0]. -/
def analyzeMaskTo2D : MaskVol → MaskVol
  | .d2 m => .d2 m
  | .d3 m =>
    if maskLast3 m = 3 then .d2 (m.map (fun row => row.map (fun px => px.getD 1 0)))
    else .d2 (m.headD [])
  | .d4 m =>
    if maskLast4 m = 3 then
      .d3 (m.map (fun fr => fr.map (fun row => row.map (fun px => px.getD 1 0))))
    else .d2 ((m.headD []).headD [])

/-- The memory state visible to a caller of analyze_calcium_intensity:
the frames array and masks array it passed in, plus the scratch array
np.zeros_like allocates for the relabeling. -/
structure Mem where
  framesArr : List VFrame
  masksArr : Grid ℕ
  scratch : Grid ℕ
deriving DecidableEq, Repr

/-- The relabeling loop of src/app.py lines 815-816 acting on the memory
state: every iteration reads masksArr and writes only scratch. -/
def relabelLoopMem (pairs : List (ℕ × ℕ)) (s : Mem) : Mem :=
  pairs.foldl (fun st p => { st with scratch := maskedAssign st.masksArr st.scratch p.2 p.1 }) s

/-- State-passing rendering of analyze_calcium_intensity (src/app.py
lines 802-865): runs the same steps as the pure model while tracking which
array every numpy write targets, and returns the result together with the
final contents of the two caller-owned arrays. -/
def analyzeMem (frames : List VFrame) (masks : Grid ℕ) : List Rec4 × List VFrame × Grid ℕ :=
  let s0 : Mem := ⟨frames, masks, zerosLike masks⟩
  let s1 := if Canonical masks then s0 else relabelLoopMem (seqPairs (uniqueCells masks)) s0
  let msk := if Canonical masks then s1.masksArr else s1.scratch
  let cells :=
    if Canonical masks then uniqueCells masks
    else List.range' 1 (uniqueCells masks).length
  let df := extractRecords s1.framesArr msk cells
  (df.map (fun r => ⟨r.frame, r.cell_id, r.intensity, r.intensity / baselineOf df r.cell_id⟩),
    s1.framesArr, s1.masksArr)

/-- Lexicographic record order claimed for the extraction output:
ascending frame, then ascending cell id within a frame. -/
def recLex (a b : Rec3) : Prop :=
  a.frame < b.frame ∨ (a.frame = b.frame ∧ a.cell_id < b.cell_id)

/-- Shape predicate: g is an h-by-w grid. -/
def GridIs {α : Type} (g : List (List α)) (h w : ℕ) : Prop :=
  g.length = h ∧ ∀ row ∈ g, row.length = w

/-- Shape predicate: a is an n-by-h-by-w array. -/
def Cube {α : Type} (a : List (List (List α))) (n h w : ℕ) : Prop :=
  a.length = n ∧ ∀ fr ∈ a, GridIs fr h w

/-- Shape predicate: a is an n-by-h-by-w-by-c array. -/
def Tens4 {α : Type} (a : List (List (List (List α)))) (n h w c : ℕ) : Prop :=
  a.length = n ∧ ∀ fr ∈ a, Cube fr h w c

instance {α : Type} (g : List (List α)) (h w : ℕ) : Decidable (GridIs g h w) := by
  unfold GridIs; infer_instance

instance {α : Type} (a : List (List (List α))) (n h w : ℕ) : Decidable (Cube a n h w) := by
  unfold Cube; infer_instance

instance {α : Type} (a : List (List (List (List α)))) (n h w c : ℕ) :
    Decidable (Tens4 a n h w c) := by
  unfold Tens4; infer_instance

/-- Row-shape agreement between a gray frame and a label grid, the
precondition under which frame[cell_mask] is defined in numpy. -/
def ShapeEq (g : Grid ℚ) (m : Grid ℕ) : Prop :=
  List.Forall₂ (fun (r : List ℚ) (s : List ℕ) => r.length = s.length) g m

/-- Channel conversion at pixel level for a pixel of c channels, matching
the spec wording: 1 channel is replicated threefold, 4 channels are
truncated to the first 3, and 3 channels pass through unchanged. -/
def chanFix (c : ℕ) (px : List ℚ) : List ℚ :=
  if c = 1 then repeat3 px else if c = 4 then px.take 3 else px

/-- Rank (number of axes) of an array value. -/
def ndim : NDArr → ℕ
  | .d1 _ => 1
  | .d2 _ => 2
  | .d3 _ => 3
  | .d4 _ => 4

/-- The 2-D plane obtained by fixing channel index i of a label volume,
the spec's wording for the axis-reduction rule. -/
def channelPlane (m : List (List (List ℕ))) (i : ℕ) : Grid ℕ :=
  m.map (fun row => row.map (fun px => px.getD i 0))

/-- Pixel-level description of the sequential relabeling: a value present
in cells maps to its 1-based rank there, anything else to 0. -/
def relabelPix (cells : List ℕ) (v : ℕ) : ℕ :=
  if v ∈ cells then cells.indexOf v + 1 else 0

/-!  Lemmas about the distinct-cell list. -/

theorem mem_uniqueCells {m : Grid ℕ} {c : ℕ} :
    c ∈ uniqueCells m ↔ c ∈ gridFlat m ∧ c ≠ 0 := by
  simp [uniqueCells, List.mem_insertionSort, List.mem_dedup, List.mem_filter]

theorem nodup_uniqueCells (m : Grid ℕ) : (uniqueCells m).Nodup :=
  ((List.perm_insertionSort _ _).nodup_iff).2 (List.nodup_dedup _)

theorem sortedLE_uniqueCells (m : Grid ℕ) :
    List.Sorted (· ≤ ·) (uniqueCells m) :=
  List.sorted_insertionSort (· ≤ ·) _

theorem sortedLT_uniqueCells (m : Grid ℕ) :
    List.Sorted (· < ·) (uniqueCells m) :=
  (sortedLE_uniqueCells m).lt_of_le (nodup_uniqueCells m)

theorem zero_not_mem_uniqueCells (m : Grid ℕ) : 0 ∉ uniqueCells m := by
  intro h
  exact (mem_uniqueCells.1 h).2 rfl

/-!  Lemmas about the relabeling loop. -/

theorem zipWith_map_same {α β γ : Type} (f : α → β → γ) (h : α → β) :
    ∀ (l : List α), List.zipWith f l (l.map h) = l.map (fun s => f s (h s))
  | [] => rfl
  | a :: t => by simp [List.zipWith, zipWith_map_same f h t]

theorem maskedAssign_map (m : Grid ℕ) (g : ℕ → ℕ) (o n : ℕ) :
    maskedAssign m (m.map (fun row => row.map g)) o n
      = m.map (fun row => row.map (fun s => if s = o then n else g s)) := by
  unfold maskedAssign
  rw [zipWith_map_same]
  exact List.map_congr_left fun row _ => zipWith_map_same _ g row

theorem relabelLoop_map (m : Grid ℕ) :
    ∀ (pairs : List (ℕ × ℕ)) (g : ℕ → ℕ),
      relabelLoop m pairs (m.map (fun row => row.map g))
        = m.map (fun row => row.map (fun v =>
            pairs.foldl (fun acc p => if v = p.2 then p.1 else acc) (g v)))
  | [], g => by simp [relabelLoop]
  | p :: rest, g => by
    show relabelLoop m rest (maskedAssign m (m.map (fun row => row.map g)) p.2 p.1) = _
    rw [maskedAssign_map, relabelLoop_map m rest]
    simp [List.foldl_cons]

theorem foldl_pairs_not_mem (v : ℕ) :
    ∀ (cells : List ℕ) (k d : ℕ), v ∉ cells →
      ((List.range' k cells.length).zip cells).foldl
          (fun acc p => if v = p.2 then p.1 else acc) d = d
  | [], _, _, _ => rfl
  | c :: cs, k, d, hv => by
    rw [List.length_cons, List.range'_succ, List.zip_cons_cons, List.foldl_cons]
    have hvc : ¬ v = c := fun h => hv (h ▸ List.mem_cons_self c cs)
    simp only [hvc, if_false]
    exact foldl_pairs_not_mem v cs (k + 1) d (fun h => hv (List.mem_cons_of_mem c h))

theorem foldl_pairs_rank (v : ℕ) :
    ∀ (cells : List ℕ), cells.Nodup → ∀ (k d : ℕ),
      ((List.range' k cells.length).zip cells).foldl
          (fun acc p => if v = p.2 then p.1 else acc) d
        = if v ∈ cells then k + List.indexOf v cells else d
  | [], _, k, d => by simp
  | c :: cs, hnd, k, d => by
    rw [List.length_cons, List.range'_succ, List.zip_cons_cons, List.foldl_cons]
    rcases List.nodup_cons.1 hnd with ⟨hc, hcs⟩
    by_cases hv : v = c
    · subst hv
      rw [if_pos rfl, foldl_pairs_not_mem v cs (k + 1) k hc]
      simp [List.indexOf_cons_self]
    · simp only [hv, if_false]
      rw [foldl_pairs_rank v cs hcs (k + 1) d]
      have hind : List.indexOf v (c :: cs) = (List.indexOf v cs).succ :=
        List.indexOf_cons_ne cs (fun h => hv h.symm)
      by_cases hm : v ∈ cs
      · have : v ∈ c :: cs := List.mem_cons_of_mem c hm
        simp only [hm, if_pos, this, hind]
        omega
      · have : v ∉ c :: cs := by
          intro h
          rcases List.mem_cons.1 h with h' | h'
          · exact hv h'
          · exact hm h'
        simp [hm, this]

theorem relabelMask_eq_map (m : Grid ℕ) :
    relabelMask m = m.map (fun row => row.map (relabelPix (uniqueCells m))) := by
  unfold relabelMask zerosLike seqPairs
  rw [relabelLoop_map m]
  refine List.map_congr_left fun row _ => List.map_congr_left fun v _ => ?_
  rw [foldl_pairs_rank v (uniqueCells m) (nodup_uniqueCells m) 1 0]
  unfold relabelPix
  by_cases hv : v ∈ uniqueCells m
  · simp [hv, Nat.add_comm]
  · simp [hv]

theorem gridFlat_map (f : ℕ → ℕ) (m : Grid ℕ) :
    gridFlat (m.map (fun row => row.map f)) = (gridFlat m).map f := by
  unfold gridFlat
  rw [List.map_flatten]

theorem indexOf_range' :
    ∀ (n s v : ℕ), s ≤ v → v < s + n → List.indexOf v (List.range' s n) = v - s
  | 0, s, v, h1, h2 => by omega
  | n + 1, s, v, h1, h2 => by
    rw [List.range'_succ]
    by_cases hv : v = s
    · subst hv
      simp [List.indexOf_cons_self]
    · rw [List.indexOf_cons_ne _ (fun h => hv h.symm),
        indexOf_range' n (s + 1) v (by omega) (by omega)]
      omega

theorem nodup_indexOf_get :
    ∀ (l : List ℕ), l.Nodup → ∀ (i : ℕ) (h : i < l.length),
      List.indexOf (l.get ⟨i, h⟩) l = i
  | [], _, i, h => by simp at h
  | a :: t, hnd, 0, h => by simp [List.indexOf_cons_self]
  | a :: t, hnd, i + 1, h => by
    rcases List.nodup_cons.1 hnd with ⟨ha, ht⟩
    have hget : (a :: t).get ⟨i + 1, h⟩ = t.get ⟨i, by simpa using h⟩ := rfl
    rw [hget, List.indexOf_cons_ne t
      (fun heq => ha (by rw [heq]; exact t.get_mem _ _)),
      nodup_indexOf_get t ht i (by simpa using h)]

theorem grid_map_id {m : Grid ℕ} {f : ℕ → ℕ}
    (h : ∀ row ∈ m, ∀ v ∈ row, f v = v) :
    m.map (fun row => row.map f) = m := by
  calc m.map (fun row => row.map f)
      = m.map id := List.map_congr_left fun row hr => by
        calc row.map f = row.map id :=
              List.map_congr_left fun v hv => h row hr v hv
          _ = row := List.map_id row
    _ = m := List.map_id m

theorem uniqueCells_relabelMask (m : Grid ℕ) :
    uniqueCells (relabelMask m) = List.range' 1 (uniqueCells m).length := by
  have hnd₂ : (List.range' 1 (uniqueCells m).length).Nodup := List.nodup_range' 1 _
  have hmem : ∀ x, x ∈ uniqueCells (relabelMask m) ↔
      x ∈ List.range' 1 (uniqueCells m).length := by
    intro x
    rw [mem_uniqueCells, relabelMask_eq_map, gridFlat_map, List.mem_range'_1]
    constructor
    · rintro ⟨hx, hx0⟩
      rcases List.mem_map.1 hx with ⟨v, _, hfv⟩
      unfold relabelPix at hfv
      by_cases hv : v ∈ uniqueCells m
      · rw [if_pos hv] at hfv
        have := List.indexOf_lt_length.2 hv
        omega
      · rw [if_neg hv] at hfv
        exact absurd hfv.symm hx0
    · rintro ⟨h1, h2⟩
      have hi : x - 1 < (uniqueCells m).length := by omega
      set v := (uniqueCells m).get ⟨x - 1, hi⟩ with hv
      have hvmem : v ∈ uniqueCells m := (uniqueCells m).get_mem _ _
      have hfx : relabelPix (uniqueCells m) v = x := by
        unfold relabelPix
        rw [if_pos hvmem, nodup_indexOf_get _ (nodup_uniqueCells m)]
        omega
      refine ⟨List.mem_map.2 ⟨v, (mem_uniqueCells.1 hvmem).1, hfx⟩, by omega⟩
  have hperm : (uniqueCells (relabelMask m)).Perm
      (List.range' 1 (uniqueCells m).length) :=
    (List.perm_ext_iff_of_nodup (nodup_uniqueCells _) hnd₂).2 hmem
  exact List.eq_of_perm_of_sorted hperm (sortedLE_uniqueCells _)
    ((List.pairwise_lt_range' 1 _ 1 (by omega)).imp Nat.le_of_lt)

theorem canonical_relabelMask (m : Grid ℕ) : Canonical (relabelMask m) := by
  unfold Canonical
  rw [uniqueCells_relabelMask, List.length_range']

theorem relabelMask_of_canonical {m : Grid ℕ} (h : Canonical m) :
    relabelMask m = m := by
  rw [relabelMask_eq_map]
  refine grid_map_id fun row hr v hv => ?_
  by_cases hv0 : v = 0
  · subst hv0
    unfold relabelPix
    rw [if_neg (zero_not_mem_uniqueCells m)]
  · have hvm : v ∈ uniqueCells m :=
      mem_uniqueCells.2 ⟨List.mem_flatten.2 ⟨row, hr, hv⟩, hv0⟩
    unfold relabelPix
    rw [if_pos hvm]
    have hvr : v ∈ List.range' 1 (uniqueCells m).length := h ▸ hvm
    rcases List.mem_range'_1.1 hvr with ⟨h1, h2⟩
    rw [h, indexOf_range' _ 1 v h1 h2]
    omega

theorem zip_self_eq_map : ∀ (l : List ℕ), l.zip l = l.map (fun v => (v, v))
  | [] => rfl
  | a :: t => by simp [List.zip_cons_cons, zip_self_eq_map t]

/-!  Lemmas about the extraction loop. -/

theorem mem_extractFrom (m : Grid ℕ) (cells : List ℕ) :
    ∀ (frames : List VFrame) (i : ℕ) (r : Rec3),
      r ∈ extractFrom m cells i frames ↔
        ∃ k, k < frames.length ∧ ∃ c ∈ cells,
          r = ⟨i + k, c, meanOver (frameGreen (frames.getD k default)) m c⟩
  | [], i, r => by simp [extractFrom]
  | fr :: rest, i, r => by
    simp only [extractFrom, List.mem_append, List.mem_map,
      mem_extractFrom m cells rest (i + 1)]
    constructor
    · rintro (⟨c, hc, rfl⟩ | ⟨k, hk, c, hc, rfl⟩)
      · exact ⟨0, by simp, c, hc, by simp⟩
      · refine ⟨k + 1, by simpa using hk, c, hc, ?_⟩
        simp only [List.getD_cons_succ, Rec3.mk.injEq]
        refine ⟨by omega, by simp⟩
    · rintro ⟨k, hk, c, hc, rfl⟩
      cases k with
      | zero => exact Or.inl ⟨c, hc, by simp⟩
      | succ k =>
        refine Or.inr ⟨k, by simpa using hk, c, hc, ?_⟩
        simp only [List.getD_cons_succ, Rec3.mk.injEq]
        refine ⟨by omega, by simp⟩

theorem extractFrom_frame_ge {m : Grid ℕ} {cells : List ℕ}
    {frames : List VFrame} {i : ℕ} {r : Rec3}
    (h : r ∈ extractFrom m cells i frames) : i ≤ r.frame := by
  rw [mem_extractFrom] at h
  rcases h with ⟨k, _, c, _, rfl⟩
  simp

theorem pairwise_extractFrom (m : Grid ℕ) {cells : List ℕ}
    (hs : List.Pairwise (· < ·) cells) :
    ∀ (frames : List VFrame) (i : ℕ),
      List.Pairwise recLex (extractFrom m cells i frames)
  | [], _ => List.Pairwise.nil
  | fr :: rest, i => by
    rw [show extractFrom m cells i (fr :: rest)
      = cells.map (fun c => ⟨i, c, meanOver (frameGreen fr) m c⟩)
          ++ extractFrom m cells (i + 1) rest from rfl, List.pairwise_append]
    refine ⟨hs.map _ (fun a b hab => Or.inr ⟨rfl, hab⟩),
      pairwise_extractFrom m hs rest (i + 1), ?_⟩
    intro a ha b hb
    rcases List.mem_map.1 ha with ⟨c, _, rfl⟩
    have hge := extractFrom_frame_ge hb
    exact Or.inl (by simp only []; omega)

theorem extractFrom_filter_length (m : Grid ℕ) (cells : List ℕ) (f c : ℕ) :
    ∀ (frames : List VFrame) (i : ℕ),
      ((extractFrom m cells i frames).filter
          (fun r => r.frame == f && r.cell_id == c)).length
        = if i ≤ f ∧ f < i + frames.length
            then (cells.filter (fun x => x == c)).length else 0
  | [], i => by
    have h0 : ¬ (i ≤ f ∧ f < i) := by omega
    simp [extractFrom, h0]
  | fr :: rest, i => by
    rw [show extractFrom m cells i (fr :: rest)
      = cells.map (fun x => ⟨i, x, meanOver (frameGreen fr) m x⟩)
          ++ extractFrom m cells (i + 1) rest from rfl,
      List.filter_append, List.length_append, List.filter_map,
      List.length_map, extractFrom_filter_length m cells f c rest (i + 1)]
    simp only [List.length_cons]
    by_cases hf : f = i
    · subst hf
      have h1 : ∀ x : ℕ, ((fun (r : Rec3) => r.frame == f && r.cell_id == c) ∘
          (fun x => (⟨f, x, meanOver (frameGreen fr) m x⟩ : Rec3))) x = (x == c) := by
        intro x
        simp
      rw [List.filter_congr (fun x _ => h1 x)]
      have h2 : ¬ (f + 1 ≤ f ∧ f < f + 1 + rest.length) := by omega
      rw [if_neg h2, if_pos (by omega)]
      omega
    · have h1 : ∀ x : ℕ, ((fun (r : Rec3) => r.frame == f && r.cell_id == c) ∘
          (fun x => (⟨i, x, meanOver (frameGreen fr) m x⟩ : Rec3))) x = false := by
        intro x
        simp [Function.comp, Ne.symm hf]
      rw [List.filter_congr (fun x _ => h1 x)]
      simp only [List.filter_false, List.length_nil, Nat.zero_add]
      by_cases h2 : i + 1 ≤ f ∧ f < i + 1 + rest.length
      · rw [if_pos h2, if_pos (by omega)]
      · rw [if_neg h2, if_neg (by omega)]

theorem analyzeRecords_intensity_unique {frames : List VFrame} {masks : Grid ℕ}
    {r r' : Rec3}
    (h : r ∈ analyzeRecords frames masks) (h' : r' ∈ analyzeRecords frames masks)
    (hf : r.frame = r'.frame) (hc : r.cell_id = r'.cell_id) :
    r.intensity = r'.intensity := by
  unfold analyzeRecords extractRecords at h h'
  rw [mem_extractFrom] at h h'
  rcases h with ⟨k, hk, c, hc1, rfl⟩
  rcases h' with ⟨k', hk', c', hc1', rfl⟩
  have hkk : k = k' := by
    have hfk : 0 + k = 0 + k' := hf
    omega
  subst hkk
  have hcc : c = c' := hc
  subst hcc
  rfl

/-!  Lemmas about the boolean-mask pixel selection. -/

theorem row_select_length (c : ℕ) :
    ∀ (r : List ℚ) (s : List ℕ), r.length = s.length →
      ((r.zip s).filterMap (fun pz => if pz.2 = c then some pz.1 else none)).length
        = (s.filter (fun v => v == c)).length
  | [], [], _ => rfl
  | [], _ :: _, h => by simp at h
  | _ :: _, [], h => by simp at h
  | a :: r, b :: s, h => by
    rw [List.zip_cons_cons]
    simp only [List.filterMap_cons, List.filter_cons]
    by_cases hb : b = c
    · simp [hb, row_select_length c r s (by simpa using h)]
    · simp [hb, row_select_length c r s (by simpa using h)]

theorem selectVals_length (c : ℕ) {g : Grid ℚ} {m : Grid ℕ} (h : ShapeEq g m) :
    (selectVals g m c).length = ((gridFlat m).filter (fun v => v == c)).length := by
  induction h with
  | nil => rfl
  | @cons r s g' m' hr hrest ih =>
    show ((((r, s) :: g'.zip m').flatMap _)).length = _
    rw [List.flatMap_cons, List.length_append, row_select_length c r s hr]
    show _ + (selectVals g' m' c).length = _
    rw [ih]
    show _ = ((s ++ (gridFlat m')).filter _).length
    rw [List.filter_append, List.length_append]

theorem selectVals_pos {g : Grid ℚ} {m : Grid ℕ} {c : ℕ}
    (h : ShapeEq g m) (hc : c ∈ gridFlat m) :
    0 < (selectVals g m c).length := by
  rw [selectVals_length c h]
  have hmem : c ∈ (gridFlat m).filter (fun v => v == c) :=
    List.mem_filter.2 ⟨hc, by simp⟩
  exact List.length_pos.2 (List.ne_nil_of_mem hmem)

theorem analyzeCells_mem_flat {masks : Grid ℕ} {c : ℕ} (h : c ∈ analyzeCells masks) :
    c ∈ gridFlat (analyzeMaskStep masks) ∧ c ≠ 0 := by
  unfold analyzeCells analyzeMaskStep at *
  by_cases hcan : Canonical masks
  · rw [if_pos hcan] at h
    rw [if_pos hcan]
    exact mem_uniqueCells.1 h
  · rw [if_neg hcan] at h
    rw [if_neg hcan]
    have hm : c ∈ uniqueCells (relabelMask masks) := by
      rw [uniqueCells_relabelMask]
      exact h
    exact mem_uniqueCells.1 hm

/-!  Lemmas about the state-passing model of the relabeling loop. -/

theorem relabelLoopMem_spec :
    ∀ (pairs : List (ℕ × ℕ)) (s : Mem),
      (relabelLoopMem pairs s).framesArr = s.framesArr ∧
      (relabelLoopMem pairs s).masksArr = s.masksArr ∧
      (relabelLoopMem pairs s).scratch = relabelLoop s.masksArr pairs s.scratch
  | [], s => ⟨rfl, rfl, rfl⟩
  | p :: rest, s => by
    have ih := relabelLoopMem_spec rest
      ⟨s.framesArr, s.masksArr, maskedAssign s.masksArr s.scratch p.2 p.1⟩
    simpa [relabelLoopMem, relabelLoop, List.foldl_cons] using ih

/-!  Shape lemmas for the frame-tensor normalization. -/

theorem repeat3_single (v : ℚ) : repeat3 [v] = [v, v, v] := rfl

theorem repeat3_length (px : List ℚ) : (repeat3 px).length = 3 * px.length := by
  induction px with
  | nil => rfl
  | cons v t ih => simp [repeat3] at ih ⊢; omega

theorem chanFix_length {c : ℕ} (hc : c = 1 ∨ c = 3 ∨ c = 4)
    (px : List ℚ) (h : px.length = c) : (chanFix c px).length = 3 := by
  rcases hc with rfl | rfl | rfl
  · simp [chanFix, repeat3_length, h]
  · simp [chanFix, h]
  · simp [chanFix, h]

theorem cube_of_gridIs_f {g : Grid ℚ} {h w k : ℕ} (hg : GridIs g h w)
    {f : ℚ → List ℚ} (hf : ∀ v, (f v).length = k) :
    Cube (g.map (fun row => row.map f)) h w k := by
  refine ⟨by simp [hg.1], fun row' hr' => ?_⟩
  rcases List.mem_map.1 hr' with ⟨row, hr, rfl⟩
  exact ⟨by simp [(hg.2 row hr)], fun px hpx => by
    rcases List.mem_map.1 hpx with ⟨v, _, rfl⟩
    exact hf v⟩

theorem cube_map_chan {a : List (List (List ℚ))} {h w c k : ℕ} (hc : Cube a h w c)
    {f : List ℚ → List ℚ} (hf : ∀ px : List ℚ, px.length = c → (f px).length = k) :
    Cube (a.map (fun row => row.map f)) h w k := by
  refine ⟨by simp [hc.1], fun row' hr' => ?_⟩
  rcases List.mem_map.1 hr' with ⟨row, hr, rfl⟩
  have hg := hc.2 row hr
  exact ⟨by simp [hg.1], fun px' hpx' => by
    rcases List.mem_map.1 hpx' with ⟨px, hpx, rfl⟩
    exact hf px (hg.2 px hpx)⟩

theorem cube_map_px_3d {a : List (List (List ℚ))} {n h w k : ℕ} (hc : Cube a n h w)
    {f : ℚ → List ℚ} (hf : ∀ v, (f v).length = k) :
    Tens4 (a.map (fun fr => fr.map (fun row => row.map f))) n h w k := by
  refine ⟨by simp [hc.1], fun fr' hfr' => ?_⟩
  rcases List.mem_map.1 hfr' with ⟨fr, hfr, rfl⟩
  exact cube_of_gridIs_f (hc.2 fr hfr) hf

theorem tens4_map_px {a : List (List (List (List ℚ)))} {n h w c k : ℕ}
    (ht : Tens4 a n h w c) {f : List ℚ → List ℚ}
    (hf : ∀ px : List ℚ, px.length = c → (f px).length = k) :
    Tens4 (a.map (fun fr => fr.map (fun row => row.map f))) n h w k := by
  refine ⟨by simp [ht.1], fun fr' hfr' => ?_⟩
  rcases List.mem_map.1 hfr' with ⟨fr, hfr, rfl⟩
  exact cube_map_chan (ht.2 fr hfr) hf

theorem tens4_singleton {x : List (List (List ℚ))} {h w c : ℕ} (hx : Cube x h w c) :
    Tens4 [x] 1 h w c := by
  refine ⟨rfl, fun fr hfr => ?_⟩
  rcases List.mem_singleton.1 hfr with rfl
  exact hx

theorem lastLen_d3 {a : List (List (List ℚ))} {n h w : ℕ}
    (ht : Cube a n h w) (hn : 1 ≤ n) (hh : 1 ≤ h) :
    lastLen (.d3 a) = w := by
  rcases a with _ | ⟨fr, atl⟩
  · have := ht.1
    simp at this
    omega
  · have hfr := ht.2 fr (List.mem_cons_self fr atl)
    rcases fr with _ | ⟨row, ftl⟩
    · have := hfr.1
      simp at this
      omega
    · have hrow := hfr.2 row (List.mem_cons_self row ftl)
      simpa [lastLen] using hrow

theorem lastLen_d4 {a : List (List (List (List ℚ)))} {n h w c : ℕ}
    (ht : Tens4 a n h w c) (hn : 1 ≤ n) (hh : 1 ≤ h) (hw : 1 ≤ w) :
    lastLen (.d4 a) = c := by
  rcases a with _ | ⟨fr, atl⟩
  · have := ht.1
    simp at this
    omega
  · have hfr := ht.2 fr (List.mem_cons_self fr atl)
    rcases fr with _ | ⟨row, ftl⟩
    · have := hfr.1
      simp at this
      omega
    · have hrow := hfr.2 row (List.mem_cons_self row ftl)
      rcases row with _ | ⟨px, rtl⟩
      · have := hrow.1
        simp at this
        omega
      · have hpx := hrow.2 px (List.mem_cons_self px rtl)
        simpa [lastLen] using hpx

theorem chanNorm_d4_one {t : List (List (List (List ℚ)))}
    (h : lastLen (.d4 t) = 1) :
    chanNorm (.d4 t) = .d4 (t.map (fun fr => fr.map (fun row => row.map repeat3))) := by
  unfold chanNorm
  rw [if_pos h]

theorem chanNorm_d4_four {t : List (List (List (List ℚ)))}
    (h : lastLen (.d4 t) = 4) :
    chanNorm (.d4 t)
      = .d4 (t.map (fun fr => fr.map (fun row => row.map (fun px => px.take 3)))) := by
  unfold chanNorm
  rw [if_neg (by omega), if_pos h]

theorem chanNorm_other {x : NDArr} (h1 : lastLen x ≠ 1) (h4 : lastLen x ≠ 4) :
    chanNorm x = x := by
  unfold chanNorm
  rw [if_neg h1, if_neg h4]

/-!  Claim theorems. -/

/-- C7: for every label image already in canonical form (positive values
exactly 1..N with no gaps), the sequential relabeling of process_mask
returns the image unchanged and the identity id map, the conditional
relabeling of analyze_calcium_intensity leaves it untouched, and
relabeling an already-relabeled image changes nothing, so
canonicalize(canonicalize(x)) = canonicalize(x) for every raw label
image x. -/
theorem C7_canonicalization_idempotent :
    (∀ m : Grid ℕ, Canonical m →
      relabelMask m = m ∧
      seqPairs (uniqueCells m) = (uniqueCells m).map (fun v => (v, v)) ∧
      analyzeMaskStep m = m) ∧
    (∀ m : Grid ℕ, relabelMask (relabelMask m) = relabelMask m) := by
  constructor
  · intro m h
    refine ⟨relabelMask_of_canonical h, ?_, ?_⟩
    · unfold seqPairs
      conv_lhs =>
        rw [show List.range' 1 (uniqueCells m).length = uniqueCells m from h.symm]
      exact zip_self_eq_map _
    · unfold analyzeMaskStep
      rw [if_pos h]
  · intro m
    exact relabelMask_of_canonical (canonical_relabelMask m)

/-- Witness for C7 at the canonical 2-by-2 image with cells 1 and 2. -/
theorem C7_witness :
    relabelMask [[0, 1], [2, 0]] = [[0, 1], [2, 0]] :=
  (C7_canonicalization_idempotent.1 [[0, 1], [2, 0]] (by decide)).1

/-- C10: analyze_calcium_intensity never mutates its caller's arrays: in
the state-passing model the frames tensor and the masks array are returned
bit-identical to the inputs (all relabeling writes target the freshly
allocated scratch array), and the computed result agrees with the pure
model. -/
theorem C10_no_input_mutation :
    ∀ (frames : List VFrame) (masks : Grid ℕ),
      (analyzeMem frames masks).2.1 = frames ∧
      (analyzeMem frames masks).2.2 = masks ∧
      (analyzeMem frames masks).1 = analyze_calcium_intensity frames masks := by
  intro frames masks
  by_cases h : Canonical masks
  · refine ⟨?_, ?_, ?_⟩ <;> simp only [analyzeMem, if_pos h]
    unfold analyze_calcium_intensity analyzeRecords
    simp [analyzeMaskStep, analyzeCells, if_pos h]
  · have hs := relabelLoopMem_spec (seqPairs (uniqueCells masks))
      ⟨frames, masks, zerosLike masks⟩
    simp only [analyzeMem, if_neg h]
    refine ⟨hs.1, hs.2.1, ?_⟩
    rw [hs.1, hs.2.2]
    unfold analyze_calcium_intensity analyzeRecords
    simp [analyzeMaskStep, analyzeCells, if_neg h, relabelMask]

/-- C5: the on-demand dF/F signal satisfies
dF[i] = (intensity[i] - b) / b where b is the mean of the first
min(baseline_frames, series length) samples of the given series alone
(baseline_frames defaults to 10 in the definition of calculate_df). -/
theorem C5_dF_formula :
    ∀ (intensities : List ℚ) (baseline_frames i : ℕ), i < intensities.length →
      (calculate_df intensities baseline_frames).length = intensities.length ∧
      (calculate_df intensities baseline_frames)[i]?
        = some ((intensities.getD i 0
              - (intensities.take baseline_frames).sum
                / ((min baseline_frames intensities.length : ℕ) : ℚ))
            / ((intensities.take baseline_frames).sum
                / ((min baseline_frames intensities.length : ℕ) : ℚ))) := by
  intro l bf i hi
  refine ⟨by simp [calculate_df], ?_⟩
  unfold calculate_df listMean
  rw [List.getElem?_map, List.getElem?_eq_getElem hi]
  have hlen : ((l.take bf).length : ℚ) = ((min bf l.length : ℕ) : ℚ) := by
    rw [List.length_take]
  rw [List.getD_eq_getElem?_getD, List.getElem?_eq_getElem hi]
  simp [hlen]

/-- Witness for C5 on the series [1, 2, 3]: the baseline is 2 and the
first dF sample is (1 - 2) / 2. -/
theorem C5_witness :
    0 < [(1 : ℚ), 2, 3].length ∧
    (calculate_df [(1 : ℚ), 2, 3] 10)[0]? = some (-(1 / 2) : ℚ) := by
  have h := C5_dF_formula [(1 : ℚ), 2, 3] 10 0 (by norm_num)
  refine ⟨by norm_num, ?_⟩
  rw [h.2]
  norm_num

/-- C1: on a canonical label image the extraction produces exactly one
record per (frame, cell) pair, every record's intensity is the mean of the
green channel over the pixels carrying its cell label, and the record
sequence is ordered by ascending frame and then ascending cell id. -/
theorem C1_extraction_order :
    ∀ (frames : List VFrame) (masks : Grid ℕ), Canonical masks →
      (∀ f c : ℕ, f < frames.length → c ∈ uniqueCells masks →
        ((analyzeRecords frames masks).filter
            (fun r => r.frame == f && r.cell_id == c)).length = 1) ∧
      (∀ r ∈ analyzeRecords frames masks,
        r.frame < frames.length ∧ r.cell_id ∈ uniqueCells masks ∧
        r.intensity = meanOver (frameGreen (frames.getD r.frame default))
          masks r.cell_id) ∧
      List.Pairwise recLex (analyzeRecords frames masks) := by
  intro frames masks hcan
  have hmask : analyzeMaskStep masks = masks := by
    unfold analyzeMaskStep
    rw [if_pos hcan]
  have hcells : analyzeCells masks = uniqueCells masks := by
    unfold analyzeCells
    rw [if_pos hcan]
  unfold analyzeRecords extractRecords
  rw [hmask, hcells]
  refine ⟨?_, ?_, ?_⟩
  · intro f c hf hc
    rw [extractFrom_filter_length, if_pos ⟨by omega, by omega⟩,
      ← List.countP_eq_length_filter]
    exact List.count_eq_one_of_mem (nodup_uniqueCells masks) hc
  · intro r hr
    rw [mem_extractFrom] at hr
    rcases hr with ⟨k, hk, c, hc, rfl⟩
    refine ⟨by simpa using hk, hc, ?_⟩
    simp
  · exact pairwise_extractFrom masks (sortedLT_uniqueCells masks) frames 0

/-- Witness for C1 on one RGB frame and the canonical two-cell mask. -/
theorem C1_witness :
    ((analyzeRecords [VFrame.rgb [[(0, 5, 0), (0, 7, 0)]]] [[1, 2]]).filter
        (fun r => r.frame == 0 && r.cell_id == 2)).length = 1 :=
  (C1_extraction_order [VFrame.rgb [[(0, 5, 0), (0, 7, 0)]]] [[1, 2]]
    (by decide)).1 0 2 (by norm_num) (by decide)

/-- C2: every output record's normalized_intensity is its intensity
divided by its cell's baseline, where the baseline is the cell's frame-0
intensity when a frame-0 record exists and otherwise the mean of the
min(10, record count) smallest intensities of that cell. -/
theorem C2_baseline_normalization :
    ∀ (frames : List VFrame) (masks : Grid ℕ),
      ∀ r ∈ analyze_calcium_intensity frames masks,
        (∀ r0 ∈ analyzeRecords frames masks,
          r0.cell_id = r.cell_id → r0.frame = 0 →
            r.normalized_intensity = r.intensity / r0.intensity) ∧
        ((¬ ∃ r0 ∈ analyzeRecords frames masks,
            r0.cell_id = r.cell_id ∧ r0.frame = 0) →
          r.normalized_intensity = r.intensity /
            listMean ((sortQ (((analyzeRecords frames masks).filter
                  (fun x => x.cell_id == r.cell_id)).map (fun x => x.intensity))).take
              (min 10 (((analyzeRecords frames masks).filter
                  (fun x => x.cell_id == r.cell_id)).map (fun x => x.intensity)).length))) := by
  intro frames masks r hr
  unfold analyze_calcium_intensity at hr
  rcases List.mem_map.1 hr with ⟨q, hq, rfl⟩
  constructor
  · intro r0 hr0 hcell hframe
    have hb : baselineOf (analyzeRecords frames masks) q.cell_id = r0.intensity := by
      unfold baselineOf
      have hmem : r0 ∈ (analyzeRecords frames masks).filter
          (fun x => x.cell_id == q.cell_id && x.frame == 0) :=
        List.mem_filter.2 ⟨hr0, by simp [hcell, hframe]⟩
      cases hflt : (analyzeRecords frames masks).filter
          (fun x => x.cell_id == q.cell_id && x.frame == 0) with
      | nil =>
        rw [hflt] at hmem
        exact absurd hmem (List.not_mem_nil r0)
      | cons hd tl =>
        show hd.intensity = r0.intensity
        have hhd : hd ∈ (analyzeRecords frames masks).filter
            (fun x => x.cell_id == q.cell_id && x.frame == 0) := by
          rw [hflt]
          exact List.mem_cons_self hd tl
        rcases List.mem_filter.1 hhd with ⟨hhdf, hpred⟩
        simp only [Bool.and_eq_true, beq_iff_eq] at hpred
        exact analyzeRecords_intensity_unique hhdf hr0
          (by rw [hpred.2, hframe]) (by rw [hpred.1, hcell])
    show q.intensity / baselineOf (analyzeRecords frames masks) q.cell_id
      = q.intensity / r0.intensity
    rw [hb]
  · intro hno
    have hflt : (analyzeRecords frames masks).filter
        (fun x => x.cell_id == q.cell_id && x.frame == 0) = [] := by
      rw [List.filter_eq_nil_iff]
      intro a ha hpa
      simp only [Bool.and_eq_true, beq_iff_eq] at hpa
      exact hno ⟨a, ha, hpa.1, hpa.2⟩
    show q.intensity / baselineOf (analyzeRecords frames masks) q.cell_id = _
    unfold baselineOf
    rw [hflt]

/-- Witness for C2 on a two-frame video with one cell: the frame-1 record
is normalized by the frame-0 intensity. -/
theorem C2_witness :
    (⟨1, 1, 3, 3⟩ : Rec4).normalized_intensity
      = (⟨1, 1, 3, 3⟩ : Rec4).intensity / (⟨0, 1, 1⟩ : Rec3).intensity := by
  have hout : analyze_calcium_intensity [VFrame.gray [[1]], VFrame.gray [[3]]] [[1]]
      = [⟨0, 1, 1, 1⟩, ⟨1, 1, 3, 3⟩] := by
    simp [analyze_calcium_intensity, analyzeRecords, extractRecords, extractFrom,
      analyzeMaskStep, analyzeCells, Canonical, uniqueCells, gridFlat, meanOver,
      selectVals, listMean, frameGreen, baselineOf, sortQ, List.filterMap_cons,
      List.zip_cons_cons, List.range']
  have hrec : analyzeRecords [VFrame.gray [[1]], VFrame.gray [[3]]] [[1]]
      = [⟨0, 1, 1⟩, ⟨1, 1, 3⟩] := by
    simp [analyzeRecords, extractRecords, extractFrom, analyzeMaskStep,
      analyzeCells, Canonical, uniqueCells, gridFlat, meanOver, selectVals,
      listMean, frameGreen, List.filterMap_cons, List.zip_cons_cons, List.range']
  exact (C2_baseline_normalization [VFrame.gray [[1]], VFrame.gray [[3]]] [[1]]
      ⟨1, 1, 3, 3⟩ (by rw [hout]; simp)).1
    ⟨0, 1, 1⟩ (by rw [hrec]; simp) rfl rfl

/-- C4 counterexample: on a one-frame all-zero video with one cell the
baseline resolves to exactly 0, yet the analysis returns a complete record
(with the junk quotient 0 / 0 standing in for numpy's non-failing IEEE
division) instead of failing with a ZeroBaseline error: the code contains
no zero-baseline check. -/
theorem C4_counterexample :
    baselineOf (analyzeRecords [VFrame.gray [[0]]] [[1]]) 1 = 0 ∧
    analyze_calcium_intensity [VFrame.gray [[0]]] [[1]] = [⟨0, 1, 0, 0⟩] := by
  constructor <;>
    simp [analyze_calcium_intensity, analyzeRecords, extractRecords, extractFrom,
      analyzeMaskStep, analyzeCells, Canonical, uniqueCells, gridFlat, meanOver,
      selectVals, listMean, frameGreen, baselineOf, sortQ, List.filterMap_cons,
      List.zip_cons_cons, List.range']

/-- C4 amended: normalized_intensity is computed by an unconditional
division by the cell's baseline; for every input the analysis returns one
output record per extracted record, zero baselines included, and never
raises. -/
theorem C4_unconditional_division :
    ∀ (frames : List VFrame) (masks : Grid ℕ),
      (analyze_calcium_intensity frames masks).length
        = (analyzeRecords frames masks).length ∧
      ∀ r ∈ analyze_calcium_intensity frames masks,
        ∃ q ∈ analyzeRecords frames masks,
          r = ⟨q.frame, q.cell_id, q.intensity,
            q.intensity / baselineOf (analyzeRecords frames masks) q.cell_id⟩ := by
  intro frames masks
  refine ⟨by simp [analyze_calcium_intensity], ?_⟩
  intro r hr
  unfold analyze_calcium_intensity at hr
  rcases List.mem_map.1 hr with ⟨q, hq, rfl⟩
  exact ⟨q, hq, rfl⟩

/-- Witness for C4's amended statement on a nonzero one-pixel video. -/
theorem C4_witness :
    ∃ q ∈ analyzeRecords [VFrame.gray [[2]]] [[1]],
      (⟨0, 1, 2, 1⟩ : Rec4) = ⟨q.frame, q.cell_id, q.intensity,
        q.intensity / baselineOf (analyzeRecords [VFrame.gray [[2]]] [[1]]) q.cell_id⟩ := by
  have hout : analyze_calcium_intensity [VFrame.gray [[2]]] [[1]] = [⟨0, 1, 2, 1⟩] := by
    simp [analyze_calcium_intensity, analyzeRecords, extractRecords, extractFrom,
      analyzeMaskStep, analyzeCells, Canonical, uniqueCells, gridFlat, meanOver,
      selectVals, listMean, frameGreen, baselineOf, sortQ, List.filterMap_cons,
      List.zip_cons_cons, List.range']
  exact (C4_unconditional_division [VFrame.gray [[2]]] [[1]]).2 ⟨0, 1, 2, 1⟩
    (by rw [hout]; simp)

/-- C8: no (frame, cell) pair considered during extraction can have an
empty pixel selection: every cell id iterated over comes from the mask
itself, so when the frame and the mask agree in shape the selection for
each considered pair is nonempty and the recorded intensity is a genuine
arithmetic mean (never the NaN of an empty mean); the EmptySelection
condition of the claim is therefore unsatisfiable. -/
theorem C8_no_empty_selection :
    ∀ (frames : List VFrame) (masks : Grid ℕ) (fr : VFrame) (c : ℕ),
      fr ∈ frames → c ∈ analyzeCells masks →
      ShapeEq (frameGreen fr) (analyzeMaskStep masks) →
      0 < (selectVals (frameGreen fr) (analyzeMaskStep masks) c).length := by
  intro frames masks fr c _ hc hsh
  exact selectVals_pos hsh (analyzeCells_mem_flat hc).1

/-- Witness for C8 on a one-pixel frame and mask. -/
theorem C8_witness :
    0 < (selectVals (frameGreen (VFrame.gray [[1]])) (analyzeMaskStep [[1]]) 1).length := by
  have hstep : analyzeMaskStep [[1]] = [[1]] := by decide
  refine C8_no_empty_selection [VFrame.gray [[1]]] [[1]] (VFrame.gray [[1]]) 1
    (List.mem_singleton.2 rfl) (by decide) ?_
  rw [hstep]
  exact List.Forall₂.cons rfl List.Forall₂.nil

/-- C3 counterexample: process_mask's 2-D reduction of a trailing-axis-3
label volume keeps the channel at index 0, not the claimed index 1: at the
1-by-1 RGB-encoded mask [[[5, 9, 7]]] it yields the plane [[5]], while the
index-1 plane is [[9]]. -/
theorem C3_counterexample :
    processMaskTo2D (.d3 [[[5, 9, 7]]]) = [[5]] ∧
    processMaskTo2D (.d3 [[[5, 9, 7]]]) ≠ channelPlane [[[5, 9, 7]]] 1 := by
  constructor <;> decide

/-- C3 amended: for a label volume with trailing axis 3, the mask branch of
analyze_video reduces to the channel-1 (green) plane, while process_mask's
mask-file ingestion reduces to the channel-0 plane. -/
theorem C3_mask_reduction :
    ∀ (m : List (List (List ℕ))) (h w : ℕ), Cube m h w 3 → 1 ≤ h → 1 ≤ w →
      analyzeMaskTo2D (.d3 m) = .d2 (channelPlane m 1) ∧
      processMaskTo2D (.d3 m) = channelPlane m 0 := by
  intro m h w hc hh hw
  have hlast : maskLast3 m = 3 := by
    rcases m with _ | ⟨row, mtl⟩
    · have := hc.1
      simp at this
      omega
    · have hrow := hc.2 row (List.mem_cons_self row mtl)
      rcases row with _ | ⟨px, rtl⟩
      · have := hrow.1
        simp at this
        omega
      · have hpx := hrow.2 px (List.mem_cons_self px rtl)
        simpa [maskLast3] using hpx
  constructor
  · show (if maskLast3 m = 3 then _ else _) = _
    rw [if_pos hlast]
    rfl
  · show (if maskLast3 m = 3 then _ else _) = _
    rw [if_pos hlast]
    unfold channelPlane
    refine List.map_congr_left fun row _ => List.map_congr_left fun px _ => ?_
    cases px <;> rfl

/-- Witness for C3's amended statement at the 1-by-1 RGB-encoded mask. -/
theorem C3_witness :
    analyzeMaskTo2D (.d3 [[[5, 9, 7]]]) = .d2 (channelPlane [[[5, 9, 7]]] 1) :=
  (C3_mask_reduction [[[5, 9, 7]]] 1 1 (by decide) (by decide) (by decide)).1

/-- C9 counterexample: when the cv2 read loop yields zero frames,
process_video returns the empty rank-1 array np.array([]) unchanged: no
branch of the shape or channel normalization applies and no
UnreadableSource error is raised. -/
theorem C9_counterexample :
    process_video (videoCapture []) = .d1 [] ∧
    ndim (process_video (videoCapture [])) = 1 := by
  constructor <;> rfl

/-- C9 amended: a video source yielding zero frames makes process_video
return the empty 1-D array (not an (N, H, W, 3) tensor), without error. -/
theorem C9_zero_frames :
    ∀ framesRead : List (List (List (List ℚ))), framesRead.length = 0 →
      process_video (videoCapture framesRead) = .d1 [] := by
  intro fs h
  have hnil : fs = [] := List.length_eq_zero.1 h
  subst hnil
  rfl

/-- Witness for C9's amended statement at the empty read list. -/
theorem C9_witness :
    process_video (videoCapture ([] : List (List (List (List ℚ))))) = .d1 [] :=
  C9_zero_frames [] rfl

/-- C6 counterexample: a 4-D input whose trailing channel axis has size 2
passes through frame normalization unchanged, so the output keeps 2
channels and is not an (N, H, W, 3) tensor. -/
theorem C6_counterexample :
    process_video (.d4 [[[[(0 : ℚ), 1]]]]) = .d4 [[[[(0 : ℚ), 1]]]] ∧
    ¬ Tens4 [[[[(0 : ℚ), 1]]]] 1 1 1 3 := by
  constructor
  · rfl
  · decide

theorem chanFix_three : chanFix 3 = id := by
  funext px
  simp [chanFix]

/-- C6 amended: for every supported input with at least one frame and
nonempty rows and columns -- a 2-D grayscale frame, a 3-D single frame
with 1, 3 or 4 channels, a 3-D multi-frame grayscale stack whose trailing
axis is not 1, 3 or 4, or a 4-D tensor whose channel axis is 1, 3 or 4 --
process_video returns an (N, H, W, 3) tensor, replicating a single channel
threefold, truncating 4 channels to the first 3, and passing 3 channels
through with pixel values unchanged. -/
theorem C6_frame_normalization :
    (∀ (g : Grid ℚ) (h w : ℕ), GridIs g h w → 1 ≤ h → 1 ≤ w →
      process_video (.d2 g) = .d4 [g.map (fun row => row.map (fun v => [v, v, v]))] ∧
      Tens4 [g.map (fun row => row.map (fun v => [v, v, v]))] 1 h w 3) ∧
    (∀ (a : List (List (List ℚ))) (h w c : ℕ), Cube a h w c → 1 ≤ h → 1 ≤ w →
      (c = 1 ∨ c = 3 ∨ c = 4) →
      process_video (.d3 a) = .d4 [a.map (fun row => row.map (chanFix c))] ∧
      Tens4 [a.map (fun row => row.map (chanFix c))] 1 h w 3) ∧
    (∀ (a : List (List (List ℚ))) (n h w : ℕ), Cube a n h w →
      1 ≤ n → 1 ≤ h → 1 ≤ w → ¬ (w = 1 ∨ w = 3 ∨ w = 4) →
      process_video (.d3 a)
        = .d4 (a.map (fun fr => fr.map (fun row => row.map (fun v => [v, v, v])))) ∧
      Tens4 (a.map (fun fr => fr.map (fun row => row.map (fun v => [v, v, v])))) n h w 3) ∧
    (∀ (a : List (List (List (List ℚ)))) (n h w c : ℕ), Tens4 a n h w c →
      1 ≤ n → 1 ≤ h → 1 ≤ w → (c = 1 ∨ c = 3 ∨ c = 4) →
      process_video (.d4 a)
        = .d4 (a.map (fun fr => fr.map (fun row => row.map (chanFix c)))) ∧
      Tens4 (a.map (fun fr => fr.map (fun row => row.map (chanFix c)))) n h w 3) := by
  refine ⟨?_, ?_, ?_, ?_⟩
  · intro g h w hg hh hw
    have ht : Tens4 [g.map (fun row => row.map (fun v => [v]))] 1 h w 1 :=
      tens4_singleton (cube_of_gridIs_f hg (fun v => rfl))
    constructor
    · show chanNorm (shapeNorm (.d2 g)) = _
      have hsh : shapeNorm (.d2 g) = .d4 [g.map (fun row => row.map (fun v => [v]))] := rfl
      rw [hsh, chanNorm_d4_one (lastLen_d4 ht (by omega) hh hw)]
      simp [List.map_map, Function.comp, repeat3_single]
    · exact tens4_singleton (cube_of_gridIs_f hg (fun v => rfl))
  · intro a h w c hc hh hw hcs
    have hl3 : lastLen (.d3 a) = c := lastLen_d3 hc hh hw
    have hsh : shapeNorm (.d3 a) = .d4 [a] := by
      show (if lastLen (.d3 a) = 1 ∨ lastLen (.d3 a) = 3 ∨ lastLen (.d3 a) = 4
        then NDArr.d4 [a] else _) = _
      simp only [hl3]
      rw [if_pos hcs]
    have hl4 : lastLen (.d4 [a]) = c := hl3
    constructor
    · show chanNorm (shapeNorm (.d3 a)) = _
      rw [hsh]
      rcases hcs with rfl | rfl | rfl
      · rw [chanNorm_d4_one hl4]
        simp [chanFix]
      · rw [chanNorm_other (by rw [hl4]; omega) (by rw [hl4]; omega)]
        simp [chanFix_three]
      · rw [chanNorm_d4_four hl4]
        simp [chanFix]
    · exact tens4_singleton (cube_map_chan hc (chanFix_length hcs))
  · intro a n h w hc hn hh hw hns
    have hl3 : lastLen (.d3 a) = w := lastLen_d3 hc hn hh
    have hsh : shapeNorm (.d3 a)
        = .d4 (a.map (fun fr => fr.map (fun row => row.map (fun v => [v])))) := by
      show (if lastLen (.d3 a) = 1 ∨ lastLen (.d3 a) = 3 ∨ lastLen (.d3 a) = 4
        then NDArr.d4 [a] else _) = _
      simp only [hl3]
      rw [if_neg hns]
    have ht1 : Tens4 (a.map (fun fr => fr.map (fun row => row.map (fun v => [v]))))
        n h w 1 := cube_map_px_3d hc (fun v => rfl)
    constructor
    · show chanNorm (shapeNorm (.d3 a)) = _
      rw [hsh, chanNorm_d4_one (lastLen_d4 ht1 hn hh hw)]
      simp [List.map_map, Function.comp, repeat3_single]
    · exact cube_map_px_3d hc (fun v => rfl)
  · intro a n h w c ht hn hh hw hcs
    have hl4 : lastLen (.d4 a) = c := lastLen_d4 ht hn hh hw
    constructor
    · show chanNorm (shapeNorm (.d4 a)) = _
      have hsh : shapeNorm (.d4 a) = .d4 a := rfl
      rw [hsh]
      rcases hcs with rfl | rfl | rfl
      · rw [chanNorm_d4_one hl4]
        simp [chanFix]
      · rw [chanNorm_other (by rw [hl4]; omega) (by rw [hl4]; omega)]
        simp [chanFix_three]
      · rw [chanNorm_d4_four hl4]
        simp [chanFix]
    · exact tens4_map_px ht (chanFix_length hcs)

/-- Witness for C6's amended statement at a 1-by-1 grayscale frame. -/
theorem C6_witness :
    process_video (.d2 [[(5 : ℚ)]]) = .d4 [[[[(5 : ℚ), 5, 5]]]] := by
  have h := (C6_frame_normalization.1 [[(5 : ℚ)]] 1 1 (by decide)
    (by norm_num) (by norm_num)).1
  simpa using h

end CalApp
